import Mathlib

/-!
Verification of the core engine of the `attaca` repository (staging, commit
and log engines in `subito/src/candidate.rs` and `subito/src/log.rs`).

The functions `commit`, `stage`, `stage_objects`, `do_process`,
`do_process_file` and the log traversal are translated from the source.
The object model (`Commit`, `CommitBuilder`, tree builders, the fingerprint
cache and the store contract) lives in the `attaca` crate, whose sources are
not part of this tree; those definitions are modelled from the specification
(spec sections 3, 4.1, 4.2, 4.3) and are marked as such.

Stores are modelled content-addressed: a handle is the index of the object in
the store's list, putting an object is idempotent under equality, and the
digest of an object collapses to its handle (equality of digests iff equality
of content, spec section 3).  Hex-encoding of digests for log display is an
injective formatting step and is left out of the model.
-/

set_option maxHeartbeats 1000000

/-- Modelled from the spec: the commit author record (spec section 3, Commit
fields); the `CommitAuthor` type lives in the attaca crate, not under src/. -/
structure CommitAuthor where
  name : Option String
  mbox : Option String
deriving DecidableEq

/-- Modelled from the spec: a Commit object (spec section 3).  `subtree` is a
tree handle, `parents` an ordered list of commit handles; the `Commit` type
lives in the attaca crate, not under src/. -/
structure Commit where
  subtree : Nat
  parents : List Nat
  author : CommitAuthor
  timestamp : Nat
  message : Option String
deriving DecidableEq

/-- Repository state: the persisted (head, candidate) pair
(`subito`'s `State`, spec section 3).  Both fields are store handles. -/
structure State where
  head : Option Nat
  candidate : Option Nat
deriving DecidableEq

/-- Arguments of `Repository::commit` (`CommitArgs` in candidate.rs). -/
structure CommitArgs where
  message : Option String
  author : Option String
  amend : Bool
  force : Bool
deriving DecidableEq

/-- Errors of the commit engine (spec section 7 taxonomy; the source raises
them as formatted `failure::Error` values at the corresponding sites). -/
inductive CommitError where
  | noCandidate
  | headMissing
  | noChanges
  | noParentToAmend
  | builderIncomplete
deriving DecidableEq

/-- Modelled from the spec: content-addressed `put` into a store held as a
list of objects (spec section 4.1): idempotent under equality, the returned
handle is the index of the object. -/
def putCA {α : Type} [DecidableEq α] : List α → α → List α × Nat
  | [], x => ([x], 0)
  | y :: l, x =>
    if y = x then (y :: l, 0)
    else
      let p := putCA l x
      (y :: p.1, p.2 + 1)

theorem putCA_get {α : Type} [DecidableEq α] (l : List α) (x : α) :
    (putCA l x).1[(putCA l x).2]? = some x := by
  induction l with
  | nil => rfl
  | cons y l ih =>
    by_cases h : y = x
    · simp [putCA, h]
    · simpa [putCA, h] using ih

/-- Fetching a commit by handle (`ObjectRef::fetch` on a commit reference,
specialised to the list-indexed store model). -/
def fetchCommit (store : List Commit) (h : Nat) : Option Commit := store[h]?

/-- Modelled from the spec: `CommitBuilder` (spec section 3, builders).  An
unset subtree makes `into_commit` fail. -/
structure CommitBuilder where
  subtree : Option Nat
  parents : List Nat
  author : CommitAuthor
  timestamp : Nat
  message : Option String
deriving DecidableEq

/-- Modelled from the spec: `CommitBuilder::new()`; the timestamp is the
current wall clock (spec section 4.5 step 6), passed in as `now`. -/
def CommitBuilder.new (now : Nat) : CommitBuilder :=
  { subtree := none, parents := [], author := { name := none, mbox := none },
    timestamp := now, message := none }

/-- Modelled from the spec: `Commit::diverge` clones a commit back into its
builder form, preserving parents, author, timestamp and message. -/
def Commit.diverge (c : Commit) : CommitBuilder :=
  { subtree := some c.subtree, parents := c.parents, author := c.author,
    timestamp := c.timestamp, message := c.message }

/-- Modelled from the spec: `CommitBuilder::into_commit` freezes the builder;
it fails when no subtree was set. -/
def CommitBuilder.intoCommit (b : CommitBuilder) : Except CommitError Commit :=
  match b.subtree with
  | some t =>
    .ok { subtree := t, parents := b.parents, author := b.author,
          timestamp := b.timestamp, message := b.message }
  | none => .error .builderIncomplete

/-- Fetch of the optional head commit (candidate.rs line 175:
`await!(state.head.clone().map(|head_ref| head_ref.fetch()))`). -/
def headFetch (store : List Commit) : Option Nat → Except CommitError (Option Commit)
  | none => .ok none
  | some h =>
    match fetchCommit store h with
    | some hc => .ok (some hc)
    | none => .error .headMissing

/-- The `ensure!` guard of candidate.rs lines 177-183: the commit is rejected
when the head exists, its subtree equals the candidate, and force is off. -/
def noChangesGuard : Option Commit → Nat → Bool → Bool
  | some hc, cand, force => decide (hc.subtree = cand) && !force
  | none, _, _ => false

/-- The builder selection of candidate.rs lines 185-194: amend diverges the
head commit (failing without one); otherwise a fresh builder whose parents
are the optional head. -/
def baseBuilder (state : State) (maybeHead : Option Commit) (amend : Bool)
    (now : Nat) : Except CommitError CommitBuilder :=
  if amend then
    match maybeHead with
    | some hc => .ok hc.diverge
    | none => .error .noParentToAmend
  else
    .ok { CommitBuilder.new now with parents := state.head.toList }

/-- Optional message override (candidate.rs lines 198-200). -/
def applyMessage (b : CommitBuilder) : Option String → CommitBuilder
  | some m => { b with message := some m }
  | none => b

/-- Optional author override (candidate.rs lines 202-207). -/
def applyAuthor (b : CommitBuilder) : Option String → CommitBuilder
  | some a => { b with author := { name := some a, mbox := none } }
  | none => b

/-- `Repository::commit` (candidate.rs lines 165-223), state-passing: on
success the new commit is in the store and the persisted state records it as
head, the candidate being kept as-is.  Errors leave the state untouched (the
source only calls `set_state` on the success path). -/
def commit (store : List Commit) (state : State) (args : CommitArgs)
    (now : Nat) : Except CommitError (List Commit × State) :=
  match state.candidate with
  | none => .error .noCandidate
  | some candidate =>
    match headFetch store state.head with
    | .error e => .error e
    | .ok maybeHead =>
      if noChangesGuard maybeHead candidate args.force then .error .noChanges
      else
        match baseBuilder state maybeHead args.amend now with
        | .error e => .error e
        | .ok b0 =>
          match (applyAuthor (applyMessage { b0 with subtree := some candidate }
              args.message) args.author).intoCommit with
          | .error e => .error e
          | .ok c =>
            .ok ((putCA store c).1, { state with head := some (putCA store c).2 })

theorem applyMessage_subtree (b : CommitBuilder) (m : Option String) :
    (applyMessage b m).subtree = b.subtree := by
  cases m <;> rfl

theorem applyAuthor_subtree (b : CommitBuilder) (a : Option String) :
    (applyAuthor b a).subtree = b.subtree := by
  cases a <;> rfl

theorem applyMessage_parents (b : CommitBuilder) (m : Option String) :
    (applyMessage b m).parents = b.parents := by
  cases m <;> rfl

theorem applyAuthor_parents (b : CommitBuilder) (a : Option String) :
    (applyAuthor b a).parents = b.parents := by
  cases a <;> rfl

/-- C1: every successful `commit` produces and installs as the new head a
commit object whose `subtree` field equals the repository state's candidate
tree reference at the moment of the call. -/
theorem commit_subtree_eq_candidate (store : List Commit) (state : State)
    (args : CommitArgs) (now : Nat) (store' : List Commit) (state' : State)
    (h : commit store state args now = .ok (store', state')) :
    ∃ t href c, state.candidate = some t ∧ state'.head = some href ∧
      fetchCommit store' href = some c ∧ c.subtree = t := by
  unfold commit at h
  split at h
  · simp at h
  next t hcand =>
    split at h
    · simp at h
    next maybeHead hhead =>
      split at h
      · simp at h
      · split at h
        · simp at h
        next b0 hb =>
          split at h
          · simp at h
          next c hc =>
            simp only [Except.ok.injEq, Prod.mk.injEq] at h
            obtain ⟨hs, hst⟩ := h
            refine ⟨t, (putCA store c).2, c, hcand, ?_, ?_, ?_⟩
            · rw [← hst]
            · rw [← hs]; exact putCA_get store c
            · unfold CommitBuilder.intoCommit at hc
              rw [applyAuthor_subtree, applyMessage_subtree] at hc
              simp only [Except.ok.injEq] at hc
              rw [← hc]

theorem commit_subtree_eq_candidate_witness :
    ∃ t href c, (⟨none, some 0⟩ : State).candidate = some t ∧
      ({ head := some 0, candidate := some 0 } : State).head = some href ∧
      fetchCommit [⟨0, [], ⟨none, none⟩, 0, none⟩] href = some c ∧
      c.subtree = t :=
  commit_subtree_eq_candidate [] ⟨none, some 0⟩ ⟨none, none, false, false⟩ 0
    [⟨0, [], ⟨none, none⟩, 0, none⟩] ⟨some 0, some 0⟩ rfl

theorem intoCommit_of_subtree (b : CommitBuilder) (t : Nat)
    (h : b.subtree = some t) :
    b.intoCommit = .ok ⟨t, b.parents, b.author, b.timestamp, b.message⟩ := by
  unfold CommitBuilder.intoCommit
  rw [h]

theorem intoCommit_isOk (b : CommitBuilder) (t : Nat) (h : b.subtree = some t) :
    ∃ c, b.intoCommit = .ok c :=
  ⟨_, intoCommit_of_subtree b t h⟩

theorem commit_success (store : List Commit) (state : State) (args : CommitArgs)
    (now : Nat) (t : Nat) (maybeHead : Option Commit)
    (hcand : state.candidate = some t)
    (hhead : headFetch store state.head = .ok maybeHead)
    (hg : noChangesGuard maybeHead t args.force = false)
    (hamend : args.amend = true → maybeHead.isSome) :
    ∃ p, commit store state args now = .ok p := by
  unfold commit
  rw [hcand, hhead]
  dsimp only
  rw [hg]
  simp only [Bool.false_eq_true, if_false]
  cases ha : args.amend with
  | false =>
    simp only [baseBuilder, Bool.false_eq_true, if_false]
    obtain ⟨c, hcc⟩ := intoCommit_isOk
      (applyAuthor (applyMessage { CommitBuilder.new now with
        parents := state.head.toList, subtree := some t } args.message) args.author) t
      (by rw [applyAuthor_subtree, applyMessage_subtree])
    rw [hcc]
    exact ⟨_, rfl⟩
  | true =>
    have := hamend ha
    cases hm : maybeHead with
    | none => rw [hm] at this; simp at this
    | some hc =>
      simp only [baseBuilder, if_true]
      obtain ⟨c, hcc⟩ := intoCommit_isOk
        (applyAuthor (applyMessage { hc.diverge with
          subtree := some t } args.message) args.author) t
        (by rw [applyAuthor_subtree, applyMessage_subtree])
      rw [hcc]
      exact ⟨_, rfl⟩

/-- C2: with candidate `T` and head `H` whose subtree equals `T`, `commit`
without force fails with `NoChanges` (no state is persisted: the embedding
returns the error before any state output, as the source only calls
`set_state` on the success path), while the same call with force on never
fails with `NoChanges`. -/
theorem commit_no_changes (store : List Commit) (state : State)
    (args : CommitArgs) (now : Nat) (t href : Nat) (hc : Commit)
    (hcand : state.candidate = some t) (hhead : state.head = some href)
    (hfetch : fetchCommit store href = some hc) (hsub : hc.subtree = t)
    (hforce : args.force = false) :
    commit store state args now = .error .noChanges ∧
      commit store state { args with force := true } now ≠
        .error .noChanges := by
  have hh : headFetch store state.head = .ok (some hc) := by
    rw [hhead]; unfold headFetch; dsimp only; rw [hfetch]
  constructor
  · unfold commit
    rw [hcand, hh]
    dsimp only
    have hg : noChangesGuard (some hc) t args.force = true := by
      unfold noChangesGuard
      dsimp only
      rw [hsub, hforce]
      simp
    rw [hg]
    simp
  · have hg : noChangesGuard (some hc) t true = false := by
      unfold noChangesGuard
      simp
    obtain ⟨p, hp⟩ := commit_success store state { args with force := true } now
      t (some hc) hcand hh hg (fun _ => rfl)
    rw [hp]
    simp

theorem commit_no_changes_witness :
    commit [⟨5, [], ⟨none, none⟩, 0, none⟩] ⟨some 0, some 5⟩
        ⟨none, none, false, false⟩ 3 = .error .noChanges ∧
      commit [⟨5, [], ⟨none, none⟩, 0, none⟩] ⟨some 0, some 5⟩
        ⟨none, none, false, true⟩ 3 ≠ .error .noChanges :=
  commit_no_changes [⟨5, [], ⟨none, none⟩, 0, none⟩] ⟨some 0, some 5⟩
    ⟨none, none, false, false⟩ 3 5 0 ⟨5, [], ⟨none, none⟩, 0, none⟩
    rfl rfl rfl rfl rfl

/-- C8: a successful non-amend commit has parents `[head]` when the state's
head is present and `[]` when it is absent. -/
theorem commit_parents_from_head (store : List Commit) (state : State)
    (args : CommitArgs) (now : Nat) (store' : List Commit) (state' : State)
    (hamend : args.amend = false)
    (h : commit store state args now = .ok (store', state')) :
    ∃ href c, state'.head = some href ∧ fetchCommit store' href = some c ∧
      (∀ H, state.head = some H → c.parents = [H]) ∧
      (state.head = none → c.parents = []) := by
  unfold commit at h
  split at h
  · simp at h
  next t hcand =>
    split at h
    · simp at h
    next maybeHead hhead =>
      split at h
      · simp at h
      · split at h
        · simp at h
        next b0 hb =>
          split at h
          · simp at h
          next c hc =>
            simp only [Except.ok.injEq, Prod.mk.injEq] at h
            obtain ⟨hs, hst⟩ := h
            have hb0 : b0.parents = state.head.toList := by
              unfold baseBuilder at hb
              rw [hamend] at hb
              simp only [Bool.false_eq_true, if_false, Except.ok.injEq] at hb
              rw [← hb]
            have hcp : c.parents = state.head.toList := by
              unfold CommitBuilder.intoCommit at hc
              rw [applyAuthor_subtree, applyMessage_subtree] at hc
              simp only [Except.ok.injEq] at hc
              rw [← hc]
              simp only [applyAuthor_parents, applyMessage_parents]
              exact hb0
            refine ⟨(putCA store c).2, c, ?_, ?_, ?_, ?_⟩
            · rw [← hst]
            · rw [← hs]; exact putCA_get store c
            · intro H hH; rw [hcp, hH]; rfl
            · intro hH; rw [hcp, hH]; rfl

theorem commit_parents_from_head_witness :
    ∃ href c,
      ({ head := some 0, candidate := some 3 } : State).head = some href ∧
      fetchCommit [⟨3, [], ⟨none, none⟩, 4, none⟩] href = some c ∧
      (∀ H, (⟨none, some 3⟩ : State).head = some H → c.parents = [H]) ∧
      ((⟨none, some 3⟩ : State).head = none → c.parents = []) :=
  commit_parents_from_head [] ⟨none, some 3⟩ ⟨none, none, false, false⟩ 4
    [⟨3, [], ⟨none, none⟩, 4, none⟩] ⟨some 0, some 3⟩ rfl rfl

/-- C9: every successful commit persists a state whose head is the new commit
reference (which resolves in the updated store) and whose candidate is
exactly the candidate before the call. -/
theorem commit_updates_head_preserves_candidate (store : List Commit)
    (state : State) (args : CommitArgs) (now : Nat) (store' : List Commit)
    (state' : State) (h : commit store state args now = .ok (store', state')) :
    (∃ href c, state'.head = some href ∧ fetchCommit store' href = some c) ∧
      state'.candidate = state.candidate := by
  unfold commit at h
  split at h
  · simp at h
  next t hcand =>
    split at h
    · simp at h
    next maybeHead hhead =>
      split at h
      · simp at h
      · split at h
        · simp at h
        next b0 hb =>
          split at h
          · simp at h
          next c hc =>
            simp only [Except.ok.injEq, Prod.mk.injEq] at h
            obtain ⟨hs, hst⟩ := h
            refine ⟨⟨(putCA store c).2, c, ?_, ?_⟩, ?_⟩
            · rw [← hst]
            · rw [← hs]; exact putCA_get store c
            · rw [← hst]

theorem commit_updates_head_preserves_candidate_witness :
    (∃ href c,
      ({ head := some 0, candidate := some 1 } : State).head = some href ∧
      fetchCommit [⟨1, [], ⟨none, none⟩, 7, none⟩] href = some c) ∧
      ({ head := some 0, candidate := some 1 } : State).candidate =
        (⟨none, some 1⟩ : State).candidate :=
  commit_updates_head_preserves_candidate [] ⟨none, some 1⟩
    ⟨none, none, false, false⟩ 7 [⟨1, [], ⟨none, none⟩, 7, none⟩]
    ⟨some 0, some 1⟩ rfl

/-- A per-file progress record (`FileProgress` in candidate.rs lines 97-104).
Paths are modelled as lists of components. -/
structure FileProgress where
  file_path : List String
  object_path : List String
  processed_bytes : Nat
  total_bytes : Nat
deriving DecidableEq

/-- The two operation kinds on the candidate tree (`OpKind`). -/
inductive OpKind where
  | stageOp
  | unstageOp
deriving DecidableEq

/-- A staging/unstaging operation (`BatchOp` in candidate.rs). -/
structure BatchOp where
  path : List String
  op : OpKind
deriving DecidableEq

/-- Arguments of `Repository::stage` (`StageArgs` in candidate.rs). -/
structure StageArgs where
  paths : List (List String)
  previous : Bool
  quiet : Bool
deriving DecidableEq

/-- Result of `Repository::stage` (`StageOut`): the progress stream, modelled
as the list of items it yields, and the batch handed to `stage_batch` by the
blocking future. -/
structure StageOut where
  progress : List FileProgress
  batch : List BatchOp
deriving DecidableEq

/-- `Repository::stage` (candidate.rs lines 225-242): chooses the op kind
from `previous`, maps it over the paths, and builds the output whose progress
stream is `stream::empty()`. -/
def stage (args : StageArgs) : StageOut :=
  { progress := [],
    batch := args.paths.map (fun p =>
      { path := p, op := if args.previous then OpKind.unstageOp else OpKind.stageOp }) }

/-- C10: for every `StageArgs` input the progress stream yields zero
`FileProgress` items, regardless of the quiet flag and of how many files are
staged. -/
theorem stage_progress_empty (args : StageArgs) : (stage args).progress = [] :=
  rfl

/-- Modelled from the spec: a tagged store reference (`ObjectRef`, spec
section 3).  The small/large blob split is a store-internal threshold the
spec leaves open; both are modelled by `blob`. -/
inductive ObjectRef where
  | blob (h : Nat)
  | tree (h : Nat)
  | commitRef (h : Nat)
deriving DecidableEq

/-- Modelled from the spec: a stored Tree object, a mapping from path
component to `ObjectRef` (spec section 3). -/
abbrev StoredTree := List (String × ObjectRef)

/-- Fetching a tree by handle from the tree store. -/
def fetchTree (tstore : List StoredTree) (h : Nat) : Option StoredTree :=
  tstore[h]?

mutual
/-- Modelled from the spec: an entry of a `TreeBuilder`: either an existing
store reference or a materialized pending subtree (spec section 3,
TreeBuilder). -/
inductive TBEntry where
  | ref (r : ObjectRef)
  | sub (t : TBList)
/-- Modelled from the spec: a `TreeBuilder`, pending child mutations over a
base tree, as an association list from components to entries. -/
inductive TBList where
  | nil
  | cons (name : String) (e : TBEntry) (rest : TBList)
end

mutual
def TBEntry.size : TBEntry → Nat
  | .ref _ => 1
  | .sub t => t.size + 1
def TBList.size : TBList → Nat
  | .nil => 0
  | .cons _ e rest => e.size + rest.size + 1
end

def TBList.lookup : TBList → String → Option TBEntry
  | .nil, _ => none
  | .cons n e rest, m => if n = m then some e else rest.lookup m

def TBList.insert : TBList → String → TBEntry → TBList
  | .nil, m, e' => .cons m e' .nil
  | .cons n e rest, m, e' =>
    if n = m then .cons n e' rest else .cons n e (rest.insert m e')

def TBList.remove : TBList → String → TBList
  | .nil, _ => .nil
  | .cons n e rest, m => if n = m then rest else .cons n e (rest.remove m)

/-- `TreeBuilder::is_empty` on the built result (candidate.rs line 439). -/
def TBList.isEmpty : TBList → Bool
  | .nil => true
  | .cons _ _ _ => false

/-- Modelled from the spec: `Tree::diverge`, cloning a stored tree back into
builder form (spec section 3). -/
def TBList.ofStored (t : StoredTree) : TBList :=
  t.foldr (fun p acc => .cons p.1 (.ref p.2) acc) .nil

/-- Modelled from the spec: an `ObjectOperation`, either
`Add(ObjectPath, ObjectRef)` or `Delete(ObjectPath)` (spec section 4.3). -/
inductive ObjectOperation where
  | add (path : List String) (r : ObjectRef)
  | delete (path : List String)
deriving DecidableEq

/-- Errors of the staging engine (spec section 7 taxonomy). -/
inductive StageError where
  | candidateMissing
  | treeMissing
  | pathShadowed
  | pathInvalid
  | fileVanished
  | openFailed
deriving DecidableEq

/-- Modelled from the spec: applying an Add to a builder (spec section 4.3):
an existing path is overwritten, intermediate subtrees are created on
demand, an intermediate stored tree handle is materialized, and an Add below
a non-tree entry fails with PathShadowed. -/
def addPath (tstore : List StoredTree) :
    TBList → List String → ObjectRef → Except StageError TBList
  | _, [], _ => .error .pathInvalid
  | t, [n], r => .ok (t.insert n (.ref r))
  | t, n :: (m :: rest), r =>
    match t.lookup n with
    | some (.sub sub) =>
      match addPath tstore sub (m :: rest) r with
      | .ok sub' => .ok (t.insert n (.sub sub'))
      | .error e => .error e
    | some (.ref (.tree h)) =>
      match fetchTree tstore h with
      | some st =>
        match addPath tstore (TBList.ofStored st) (m :: rest) r with
        | .ok sub' => .ok (t.insert n (.sub sub'))
        | .error e => .error e
      | none => .error .treeMissing
    | some (.ref _) => .error .pathShadowed
    | none =>
      match addPath tstore .nil (m :: rest) r with
      | .ok sub' => .ok (t.insert n (.sub sub'))
      | .error e => .error e

/-- Modelled from the spec: applying a Delete to a builder (spec section
4.3): deleting an absent path is a no-op; a subtree emptied by the delete is
pruned. -/
def delPath (tstore : List StoredTree) :
    TBList → List String → Except StageError TBList
  | t, [] => .ok t
  | t, [n] => .ok (t.remove n)
  | t, n :: (m :: rest) =>
    match t.lookup n with
    | some (.sub sub) =>
      match delPath tstore sub (m :: rest) with
      | .ok sub' =>
        .ok (if sub'.isEmpty then t.remove n else t.insert n (.sub sub'))
      | .error e => .error e
    | some (.ref (.tree h)) =>
      match fetchTree tstore h with
      | some st =>
        match delPath tstore (TBList.ofStored st) (m :: rest) with
        | .ok sub' =>
          .ok (if sub'.isEmpty then t.remove n else t.insert n (.sub sub'))
        | .error e => .error e
      | none => .error .treeMissing
    | some (.ref _) => .ok t
    | none => .ok t

/-- Modelled from the spec: `ObjectBatch::run(store, base_builder)` applies
the operations in insertion order starting from the base builder (spec
section 4.3). -/
def batchRun (tstore : List StoredTree) :
    List ObjectOperation → TBList → Except StageError TBList
  | [], base => .ok base
  | .add p r :: rest, base =>
    match addPath tstore base p r with
    | .ok t' => batchRun tstore rest t'
    | .error e => .error e
  | .delete p :: rest, base =>
    match delPath tstore base p with
    | .ok t' => batchRun tstore rest t'
    | .error e => .error e

/-- Modelled from the spec: empty subtrees are pruned before upload (spec
section 4.3). -/
def TBList.prune : TBList → TBList
  | .nil => .nil
  | .cons n (.ref r) rest => .cons n (.ref r) rest.prune
  | .cons n (.sub t) rest =>
    if t.prune.isEmpty then rest.prune else .cons n (.sub t.prune) rest.prune
termination_by t => t.size
decreasing_by all_goals simp [TBList.size, TBEntry.size]; omega

mutual
/-- Modelled from the spec: uploading the entries of a built tree, sending
pending subtrees bottom-up and threading the content-addressed store. -/
def sendEntries (tstore : List StoredTree) : TBList → List StoredTree × StoredTree
  | .nil => (tstore, [])
  | .cons n (.ref r) rest =>
    ((sendEntries tstore rest).1, (n, r) :: (sendEntries tstore rest).2)
  | .cons n (.sub t) rest =>
    ((sendEntries (sendTree tstore t).1 rest).1,
      (n, .tree (sendTree tstore t).2) :: (sendEntries (sendTree tstore t).1 rest).2)
termination_by t => (t.size, 0)
decreasing_by
  all_goals apply Prod.Lex.left
  all_goals simp [TBList.size, TBEntry.size]
  all_goals omega
/-- Modelled from the spec: `Tree::send`, the content-addressed upload of a
built tree, returning the new store and the tree handle (spec section 4.1). -/
def sendTree (tstore : List StoredTree) (t : TBList) : List StoredTree × Nat :=
  putCA (sendEntries tstore t).1 (sendEntries tstore t).2
termination_by (t.size, 1)
decreasing_by exact Prod.Lex.right _ (by omega)
end

/-- Upload of the built candidate (`new_candidate_built.as_tree().send`,
candidate.rs line 442), pruning empty subtrees first (spec section 4.3). -/
def uploadTree (tstore : List StoredTree) (t : TBList) : List StoredTree × Nat :=
  sendTree tstore t.prune

/-- The candidate's builder (candidate.rs lines 430-435): fetch and diverge
the candidate tree when present, else a fresh builder. -/
def candidateBuilder (tstore : List StoredTree) :
    Option Nat → Except StageError TBList
  | none => .ok .nil
  | some h =>
    match fetchTree tstore h with
    | some st => .ok (TBList.ofStored st)
    | none => .error .candidateMissing

/-- `Repository::stage_objects` (candidate.rs lines 424-451): run the batch
over the candidate's builder; when the result is empty and there is no head,
the new candidate is None, otherwise the tree is uploaded and the candidate
set to its handle; the new state is persisted with the head unchanged. -/
def stage_objects (tstore : List StoredTree) (state : State)
    (batch : List ObjectOperation) :
    Except StageError (List StoredTree × State) :=
  match candidateBuilder tstore state.candidate with
  | .error e => .error e
  | .ok base =>
    match batchRun tstore batch base with
    | .error e => .error e
    | .ok built =>
      if built.isEmpty && state.head.isNone then
        .ok (tstore, { state with candidate := none })
      else
        .ok ((uploadTree tstore built).1,
          { state with candidate := some (uploadTree tstore built).2 })

theorem uploadTree_resolves (tstore : List StoredTree) (t : TBList) :
    fetchTree (uploadTree tstore t).1 (uploadTree tstore t).2 =
      some (sendEntries tstore t.prune).2 := by
  unfold uploadTree sendTree fetchTree
  exact putCA_get _ _

/-- C3: for every batch applied via `stage_objects`, when the tree built by
running the batch over the current candidate's builder is empty and there is
no head, the persisted candidate is None and the store is untouched;
otherwise the built tree is uploaded and the persisted candidate is the
handle of that tree, which resolves in the updated store. -/
theorem stage_objects_candidate (tstore : List StoredTree) (state : State)
    (batch : List ObjectOperation) (base built : TBList)
    (hbase : candidateBuilder tstore state.candidate = .ok base)
    (hrun : batchRun tstore batch base = .ok built) :
    (built.isEmpty = true ∧ state.head = none →
      stage_objects tstore state batch =
        .ok (tstore, { state with candidate := none })) ∧
    (built.isEmpty = false ∨ state.head ≠ none →
      ∃ ts' hnd st,
        stage_objects tstore state batch =
          .ok (ts', { state with candidate := some hnd }) ∧
        fetchTree ts' hnd = some st) := by
  unfold stage_objects
  rw [hbase]
  dsimp only
  rw [hrun]
  dsimp only
  constructor
  · rintro ⟨he, hh⟩
    rw [he, hh]
    simp
  · intro hcase
    have hcond : (built.isEmpty && state.head.isNone) = false := by
      cases hcase with
      | inl he => rw [he]; simp
      | inr hh =>
        cases hd : state.head with
        | none => exact absurd hd hh
        | some x => simp
    rw [hcond]
    simp only [Bool.false_eq_true, if_false]
    exact ⟨_, _, _, rfl, uploadTree_resolves tstore built⟩

theorem stage_objects_candidate_witness :
    (TBList.cons "a" (.ref (.blob 0)) .nil).isEmpty = false ∧
    ∃ ts' hnd st,
      stage_objects [] ⟨none, none⟩ [.add ["a"] (.blob 0)] =
        .ok (ts', { head := none, candidate := some hnd }) ∧
      fetchTree ts' hnd = some st :=
  ⟨rfl,
    (stage_objects_candidate [] ⟨none, none⟩ [.add ["a"] (.blob 0)]
      .nil (TBList.cons "a" (.ref (.blob 0)) .nil) rfl rfl).2 (Or.inl rfl)⟩

/-- Kind of a filesystem entry (regular file, symlink, directory). -/
inductive FileType where
  | file
  | symlink
  | dir
deriving DecidableEq

/-- A filesystem entry: its kind and its content, standing in for the bytes
of a file (and for symlink target bytes, which the engine hashes like file
contents). -/
structure FSEntry where
  ftype : FileType
  content : Nat
deriving DecidableEq

/-- The local filesystem as a finite map from absolute paths (component
lists) to entries, in directory-walk order. -/
abbrev FileSystem := List (List String × FSEntry)

def fsLookup (fs : FileSystem) (p : List String) : Option FSEntry :=
  match fs with
  | [] => none
  | (q, e) :: rest => if q = p then some e else fsLookup rest p

/-- Modelled from the spec: a Snapshot, the filesystem fingerprint of a path
(spec section 3), together with the remembered object reference the cache
can attach to it (`snapshot.as_object_ref()`). -/
structure Snapshot where
  path : List String
  fp : FSEntry
  objRef : Option ObjectRef
deriving DecidableEq

/-- Modelled from the spec: certainty of a cache hit (spec section 3). -/
inductive Certainty where
  | positive
  | negative
deriving DecidableEq

/-- Modelled from the spec: the Status output of the fingerprint cache
(spec section 3). -/
inductive Status where
  | new (s : Snapshot)
  | extant (c : Certainty) (s : Snapshot)
  | removed
  | extinct
deriving DecidableEq

/-- Modelled from the spec: the fingerprint cache's persistent table,
mapping ObjectPath to (Snapshot fingerprint, remembered reference)
(spec sections 4.2 and 6). -/
structure Cache where
  table : List (List String × (FSEntry × ObjectRef))
deriving DecidableEq

def tableLookup : List (List String × (FSEntry × ObjectRef)) → List String →
    Option (FSEntry × ObjectRef)
  | [], _ => none
  | (q, w) :: rest, p => if q = p then some w else tableLookup rest p

def tableInsert : List (List String × (FSEntry × ObjectRef)) → List String →
    FSEntry × ObjectRef → List (List String × (FSEntry × ObjectRef))
  | [], p, v => [(p, v)]
  | (q, w) :: rest, p, v =>
    if q = p then (q, v) :: rest else (q, w) :: tableInsert rest p v

def Cache.lookup (c : Cache) (p : List String) : Option (FSEntry × ObjectRef) :=
  tableLookup c.table p

/-- Modelled from the spec: `cache.status(path)` stats the absolute path
(repo root ++ object path) and crosses it with the cached snapshot
(spec section 4.2, algorithm for status). -/
def Cache.status (c : Cache) (fs : FileSystem) (root objPath : List String) :
    Status :=
  match fsLookup fs (root ++ objPath), c.lookup objPath with
  | some e, none => .new ⟨objPath, e, none⟩
  | none, none => .extinct
  | some e, some fr =>
    if e = fr.1 then .extant .positive ⟨objPath, fr.1, some fr.2⟩
    else .extant .negative ⟨objPath, e, none⟩
  | none, some _ => .removed

/-- Modelled from the spec: `cache.resolve(snapshot, digest)` records that
the snapshot hashes to the given reference (spec section 4.2). -/
def Cache.resolve (c : Cache) (snap : Snapshot) (r : ObjectRef) : Cache :=
  ⟨tableInsert c.table snap.path (snap.fp, r)⟩

/-- The combined blob and tree store threaded through staging. -/
structure Stores where
  blobs : List Nat
  trees : List StoredTree
deriving DecidableEq

/-- Modelled from the spec: resolving a remembered reference against the
current store (`odr.resolve(&store)`): the reference is returned when its
handle is present.  Commit references never enter the stage cache. -/
def resolveRef (ss : Stores) : ObjectRef → Option ObjectRef
  | .blob h => if h < ss.blobs.length then some (.blob h) else none
  | .tree h => if h < ss.trees.length then some (.tree h) else none
  | .commitRef _ => none

/-- Modelled from the spec: `object::share(file, store)` streams the file's
bytes through the store's content-addressing path and yields the new
reference (spec section 4.4, process_file step 3). -/
def share (ss : Stores) (content : Nat) : Stores × ObjectRef :=
  ({ ss with blobs := (putCA ss.blobs content).1 },
    .blob (putCA ss.blobs content).2)

/-- The pre-resolution step of candidate.rs lines 255-264: only an
Extant(Positive, snapshot) status with a remembered reference that resolves
in the current store produces a hit. -/
def preResolution (ss : Stores) : Status → Option ObjectRef
  | .extant .positive snap =>
    match snap.objRef with
    | some r => resolveRef ss r
    | none => none
  | _ => none

/-- `Repository::do_process_file` (candidate.rs lines 244-288): on a cache
hit the remembered reference is yielded without touching the file; otherwise
the file is opened, shared through the store, and the cache resolved; a
Removed/Extinct status fails with the file-vanished error.  The final `Nat`
counts the hash computations (`object::share` calls) the call performed. -/
def do_process_file (ss : Stores) (cache : Cache) (fs : FileSystem)
    (root absolute_path object_path : List String) :
    Except StageError (Stores × Cache × ObjectRef × Nat) :=
  match preResolution ss (cache.status fs root object_path) with
  | some r => .ok (ss, cache, r, 0)
  | none =>
    match cache.status fs root object_path with
    | .extant _ snap | .new snap =>
      match fsLookup fs absolute_path with
      | some e =>
        .ok ((share ss e.content).1,
          cache.resolve snap (share ss e.content).2, (share ss e.content).2, 1)
      | none => .error .openFailed
    | .removed | .extinct => .error .fileVanished

/-- The directory walk of candidate.rs lines 311-333: all non-directory
entries strictly below the staged directory, in filesystem order
(directories themselves are skipped by the loop). -/
def walkFiles (fs : FileSystem) (absolute_path : List String) : FileSystem :=
  fs.filter fun q =>
    absolute_path.isPrefixOf q.1 && decide (q.1 ≠ absolute_path) &&
      decide (q.2.ftype ≠ .dir)

/-- The per-file loop of the directory branch of `do_process`: process each
walked file (its object path is directory-relative, as produced by
`strip_prefix`), accumulating Add operations and hash counts. -/
def walkFold (cache : Cache) (fs : FileSystem) (root : List String)
    (absolute_path : List String) (ss : Stores) :
    FileSystem → Except StageError (Stores × Cache × List ObjectOperation × Nat)
  | [] => .ok (ss, cache, [], 0)
  | (p, _) :: rest =>
    match do_process_file ss cache fs root p (p.drop absolute_path.length) with
    | .ok (ss1, c1, r, n1) =>
      match walkFold c1 fs root absolute_path ss1 rest with
      | .ok (ss2, c2, ops, n2) =>
        .ok (ss2, c2, .add (p.drop absolute_path.length) r :: ops, n1 + n2)
      | .error e => .error e
    | .error e => .error e

/-- `Repository::do_process` (candidate.rs lines 290-338): a missing
filesystem entry yields None; a file or symlink is processed through
`do_process_file`; a directory is walked, the inner batch run over an empty
builder, and the resulting tree sent to the store. -/
def do_process (ss : Stores) (cache : Cache) (fs : FileSystem)
    (root absolute_path object_path : List String) :
    Except StageError (Stores × Cache × Option ObjectRef × Nat) :=
  match fsLookup fs absolute_path with
  | none => .ok (ss, cache, none, 0)
  | some entry =>
    match entry.ftype with
    | .file | .symlink =>
      match do_process_file ss cache fs root absolute_path object_path with
      | .ok (ss', c', r, n) => .ok (ss', c', some r, n)
      | .error e => .error e
    | .dir =>
      match walkFold cache fs root absolute_path ss (walkFiles fs absolute_path) with
      | .ok (ss1, c1, ops, n) =>
        match batchRun ss1.trees ops .nil with
        | .ok built =>
          .ok ({ ss1 with trees := (uploadTree ss1.trees built).1 }, c1,
            some (.tree (uploadTree ss1.trees built).2), n)
        | .error e => .error e
      | .error e => .error e

/-- C6: a Stage operation on a path whose filesystem entry does not exist
yields None (Delete semantics on the candidate, with no side effect); but a
Removed or Extinct cache status inside `do_process_file` fails with the
file-vanished error instead of being turned into a Delete. -/
theorem process_absent_none_vanished_error :
    (∀ (ss : Stores) (cache : Cache) (fs : FileSystem) (root ap op : List String),
      fsLookup fs ap = none →
      do_process ss cache fs root ap op = .ok (ss, cache, none, 0)) ∧
    (∀ (ss : Stores) (cache : Cache) (fs : FileSystem) (root ap op : List String),
      cache.status fs root op = .removed ∨ cache.status fs root op = .extinct →
      do_process_file ss cache fs root ap op = .error .fileVanished) := by
  constructor
  · intro ss cache fs root ap op h
    unfold do_process
    rw [h]
  · intro ss cache fs root ap op h
    unfold do_process_file
    cases h with
    | inl h => rw [h]; rfl
    | inr h => rw [h]; rfl

theorem process_absent_none_vanished_error_witness :
    do_process ⟨[], []⟩ ⟨[]⟩ [] [] ["x"] ["x"] = .ok (⟨[], []⟩, ⟨[]⟩, none, 0) ∧
    do_process_file ⟨[], []⟩ ⟨[(["y"], (⟨.file, 7⟩, .blob 0))]⟩ [] [] ["y"] ["y"] =
      .error .fileVanished :=
  ⟨process_absent_none_vanished_error.1 ⟨[], []⟩ ⟨[]⟩ [] [] ["x"] ["x"] rfl,
    process_absent_none_vanished_error.2 ⟨[], []⟩ ⟨[(["y"], (⟨.file, 7⟩, .blob 0))]⟩
      [] [] ["y"] ["y"] (Or.inl rfl)⟩

theorem putCA_lt {α : Type} [DecidableEq α] (l : List α) (x : α) :
    (putCA l x).2 < (putCA l x).1.length := by
  induction l with
  | nil => simp [putCA]
  | cons y l ih =>
    by_cases h : y = x
    · simp [putCA, h]
    · simpa [putCA, h] using ih

theorem tableLookup_insert_self (tb : List (List String × (FSEntry × ObjectRef)))
    (p : List String) (v : FSEntry × ObjectRef) :
    tableLookup (tableInsert tb p v) p = some v := by
  induction tb with
  | nil => simp [tableInsert, tableLookup]
  | cons qw rest ih =>
    by_cases h : qw.1 = p
    · simp [tableInsert, tableLookup, h]
    · simpa [tableInsert, tableLookup, h] using ih

theorem status_extant_facts (c : Cache) (fs : FileSystem) (root op : List String)
    (ct : Certainty) (snap : Snapshot)
    (h : c.status fs root op = .extant ct snap) :
    snap.path = op ∧ fsLookup fs (root ++ op) = some snap.fp := by
  unfold Cache.status at h
  cases hfs : fsLookup fs (root ++ op) with
  | none =>
    cases hlk : c.lookup op with
    | none => rw [hfs, hlk] at h; simp at h
    | some fr => rw [hfs, hlk] at h; simp at h
  | some e =>
    cases hlk : c.lookup op with
    | none => rw [hfs, hlk] at h; simp at h
    | some fr =>
      rw [hfs, hlk] at h
      dsimp only at h
      by_cases he : e = fr.1
      · rw [if_pos he] at h
        simp only [Status.extant.injEq] at h
        obtain ⟨-, h2⟩ := h
        subst h2
        exact ⟨rfl, congrArg some he⟩
      · rw [if_neg he] at h
        simp only [Status.extant.injEq] at h
        obtain ⟨-, h2⟩ := h
        subst h2
        exact ⟨rfl, rfl⟩

theorem status_new_facts (c : Cache) (fs : FileSystem) (root op : List String)
    (snap : Snapshot) (h : c.status fs root op = .new snap) :
    snap.path = op ∧ fsLookup fs (root ++ op) = some snap.fp := by
  unfold Cache.status at h
  cases hfs : fsLookup fs (root ++ op) with
  | none =>
    cases hlk : c.lookup op with
    | none => rw [hfs, hlk] at h; simp at h
    | some fr => rw [hfs, hlk] at h; simp at h
  | some e =>
    cases hlk : c.lookup op with
    | none =>
      rw [hfs, hlk] at h
      simp only [Status.new.injEq] at h
      subst h
      exact ⟨rfl, rfl⟩
    | some fr =>
      rw [hfs, hlk] at h
      dsimp only at h
      by_cases he : e = fr.1
      · rw [if_pos he] at h; simp at h
      · rw [if_neg he] at h; simp at h

theorem status_of_lookup (c : Cache) (fs : FileSystem) (root op : List String)
    (fp : FSEntry) (r : ObjectRef)
    (hfs : fsLookup fs (root ++ op) = some fp)
    (hlk : c.lookup op = some (fp, r)) :
    c.status fs root op = .extant .positive ⟨op, fp, some r⟩ := by
  unfold Cache.status
  rw [hfs, hlk]
  dsimp only
  rw [if_pos rfl]

/-- C7: a file whose cache status is Extant(Positive, snapshot) with a
remembered reference that still resolves in the current store is yielded
without opening or hashing the file (zero hash computations, store and cache
untouched); and after any successful `do_process_file`, re-running it on the
unchanged filesystem performs zero hash computations and yields the same
reference, so the call performs at most one hash computation in total. -/
theorem process_file_cache_hit :
    (∀ (ss : Stores) (cache : Cache) (fs : FileSystem) (root ap op : List String)
        (snap : Snapshot) (r : ObjectRef),
      cache.status fs root op = .extant .positive snap →
      snap.objRef = some r →
      resolveRef ss r = some r →
      do_process_file ss cache fs root ap op = .ok (ss, cache, r, 0)) ∧
    (∀ (ss : Stores) (cache : Cache) (fs : FileSystem) (root ap op : List String)
        (ss' : Stores) (cache' : Cache) (r : ObjectRef) (n : Nat),
      do_process_file ss cache fs root ap op = .ok (ss', cache', r, n) →
      n ≤ 1 ∧ do_process_file ss' cache' fs root ap op = .ok (ss', cache', r, 0)) := by
  constructor
  · intro ss cache fs root ap op snap r hstat hobj hres
    unfold do_process_file
    rw [hstat]
    simp only [preResolution]
    rw [hobj]
    dsimp only
    rw [hres]
  · intro ss cache fs root ap op ss' cache' r n h
    cases hpre : preResolution ss (cache.status fs root op) with
    | some r0 =>
      unfold do_process_file at h
      rw [hpre] at h
      simp only [Except.ok.injEq, Prod.mk.injEq] at h
      obtain ⟨h1, h2, h3, h4⟩ := h
      subst h1; subst h2; subst h3; subst h4
      refine ⟨Nat.zero_le 1, ?_⟩
      unfold do_process_file
      rw [hpre]
    | none =>
      unfold do_process_file at h
      rw [hpre] at h
      have main : ∀ snap : Snapshot, snap.path = op →
          fsLookup fs (root ++ op) = some snap.fp →
          (match fsLookup fs ap with
            | some e =>
              Except.ok ((share ss e.content).1,
                cache.resolve snap (share ss e.content).2,
                (share ss e.content).2, 1)
            | none => Except.error StageError.openFailed) =
            .ok (ss', cache', r, n) →
          n ≤ 1 ∧ do_process_file ss' cache' fs root ap op =
            .ok (ss', cache', r, 0) := by
        intro snap hpath hfp hm
        cases hap : fsLookup fs ap with
        | none => rw [hap] at hm; simp at hm
        | some e =>
          rw [hap] at hm
          simp only [Except.ok.injEq, Prod.mk.injEq] at hm
          obtain ⟨h1, h2, h3, h4⟩ := hm
          subst h1; subst h2; subst h3
          refine ⟨by omega, ?_⟩
          have hlk : Cache.lookup (cache.resolve snap (share ss e.content).2) op =
              some (snap.fp, (share ss e.content).2) := by
            unfold Cache.lookup Cache.resolve
            rw [hpath]
            exact tableLookup_insert_self cache.table op _
          have hstat2 : Cache.status (cache.resolve snap (share ss e.content).2)
              fs root op =
              .extant .positive ⟨op, snap.fp, some (share ss e.content).2⟩ :=
            status_of_lookup _ fs root op snap.fp _ hfp hlk
          have hres2 : resolveRef (share ss e.content).1 (share ss e.content).2 =
              some (share ss e.content).2 := by
            unfold share resolveRef
            exact if_pos (putCA_lt ss.blobs e.content)
          unfold do_process_file
          rw [hstat2]
          simp only [preResolution]
          rw [hres2]
      cases hstat : cache.status fs root op with
      | extant ct snap =>
        rw [hstat] at h
        have facts := status_extant_facts cache fs root op ct snap hstat
        exact main snap facts.1 facts.2 h
      | new snap =>
        rw [hstat] at h
        have facts := status_new_facts cache fs root op snap hstat
        exact main snap facts.1 facts.2 h
      | removed => rw [hstat] at h; simp at h
      | extinct => rw [hstat] at h; simp at h

theorem process_file_cache_hit_witness :
    do_process_file ⟨[9], []⟩
        ⟨[(["f"], (⟨.file, 9⟩, .blob 0))]⟩ [(["f"], ⟨.file, 9⟩)] [] ["f"] ["f"] =
      .ok (⟨[9], []⟩, ⟨[(["f"], (⟨.file, 9⟩, .blob 0))]⟩, .blob 0, 0) ∧
    (0 : Nat) ≤ 1 ∧
    do_process_file ⟨[9], []⟩
        ⟨[(["f"], (⟨.file, 9⟩, .blob 0))]⟩ [(["f"], ⟨.file, 9⟩)] [] ["f"] ["f"] =
      .ok (⟨[9], []⟩, ⟨[(["f"], (⟨.file, 9⟩, .blob 0))]⟩, .blob 0, 0) :=
  ⟨process_file_cache_hit.1 ⟨[9], []⟩ ⟨[(["f"], (⟨.file, 9⟩, .blob 0))]⟩
      [(["f"], ⟨.file, 9⟩)] [] ["f"] ["f"] ⟨["f"], ⟨.file, 9⟩, some (.blob 0)⟩
      (.blob 0) rfl rfl rfl,
    process_file_cache_hit.2 ⟨[9], []⟩ ⟨[(["f"], (⟨.file, 9⟩, .blob 0))]⟩
      [(["f"], ⟨.file, 9⟩)] [] ["f"] ["f"] ⟨[9], []⟩
      ⟨[(["f"], (⟨.file, 9⟩, .blob 0))]⟩ (.blob 0) 0
      (process_file_cache_hit.1 ⟨[9], []⟩ ⟨[(["f"], (⟨.file, 9⟩, .blob 0))]⟩
        [(["f"], ⟨.file, 9⟩)] [] ["f"] ["f"] ⟨["f"], ⟨.file, 9⟩, some (.blob 0)⟩
        (.blob 0) rfl rfl rfl)⟩

/-- Errors of the log traversal: a parent reference that does not resolve,
or exhaustion of the fuel that makes the loop of log.rs a total function
(the Rust loop needs none; the chosen fuel is shown sufficient). -/
inductive LogError where
  | notFound
  | fuelExhausted
deriving DecidableEq

/-- The visited-set update of log.rs lines 63-69: every parent is inserted
into `visited` in parent-list order; the newly inserted ones are returned in
that order, to be pushed onto the stack. -/
def markParents (visited : List Nat) : List Nat → List Nat × List Nat
  | [] => (visited, [])
  | p :: ps =>
    if p ∈ visited then markParents visited ps
    else
      ((markParents (p :: visited) ps).1, p :: (markParents (p :: visited) ps).2)

/-- The traversal loop of `Repository::log` (log.rs lines 58-103).  The
stack's top is the list head; `Vec::extend` followed by `Vec::pop` therefore
pushes the fresh parents in reverse order onto the front.  Each popped commit
is fetched and yielded together with its reference (the hex digest rewriting
of the source is display formatting over the same data, see the module
comment).  Returns the remaining fuel and final visited set alongside the
yields. -/
def logLoopS (store : List Commit) : Nat → List Nat → List Nat →
    Except LogError (Nat × List Nat × List (Nat × Commit))
  | fuel, visited, [] =>
    match fuel, visited with
    | f, v => .ok (f, v, [])
  | 0, _, _ :: _ => .error .fuelExhausted
  | fuel + 1, visited, c :: rest =>
    match fetchCommit store c with
    | none => .error .notFound
    | some cm =>
      match logLoopS store fuel (markParents visited cm.parents).1
          ((markParents visited cm.parents).2.reverse ++ rest) with
      | .ok (f', v', ys) => .ok (f', v', (c, cm) :: ys)
      | .error e => .error e

/-- `Repository::log` (log.rs lines 49-111) over a state's head: the empty
sequence without a head, else the traversal from the head with fuel
sufficient for any store (shown sufficient under the DAG hypotheses). -/
def logRun (store : List Commit) (head : Option Nat) :
    Except LogError (List (Nat × Commit)) :=
  match head with
  | none => .ok []
  | some h =>
    match logLoopS store (store.length + 1) [] [h] with
    | .ok (_, _, ys) => .ok ys
    | .error e => .error e

/-- C5 counterexample: in the store `[P1, P2, C]` the head commit `C`
(handle 2) has parents `[0, 1]` in that order, yet `log` yields commit 1
(the second parent) before commit 0 (the first parent): the tie is broken by
reverse parent-list order, not parent-list order. -/
theorem log_parent_order_counterexample :
    (fetchCommit [⟨10, [], ⟨none, none⟩, 0, none⟩, ⟨11, [], ⟨none, none⟩, 1, none⟩,
        ⟨12, [0, 1], ⟨none, none⟩, 2, none⟩] 2).map Commit.parents = some [0, 1] ∧
    logRun [⟨10, [], ⟨none, none⟩, 0, none⟩, ⟨11, [], ⟨none, none⟩, 1, none⟩,
        ⟨12, [0, 1], ⟨none, none⟩, 2, none⟩] (some 2) =
      .ok [(2, ⟨12, [0, 1], ⟨none, none⟩, 2, none⟩),
        (1, ⟨11, [], ⟨none, none⟩, 1, none⟩),
        (0, ⟨10, [], ⟨none, none⟩, 0, none⟩)] :=
  ⟨rfl, rfl⟩

theorem markParents_fst_mem (ps : List Nat) (v : List Nat) (x : Nat) :
    x ∈ (markParents v ps).1 ↔ x ∈ v ∨ x ∈ ps := by
  induction ps generalizing v with
  | nil => simp [markParents]
  | cons p ps ih =>
    by_cases hp : p ∈ v
    · rw [markParents, if_pos hp, ih]
      simp only [List.mem_cons]
      constructor
      · rintro (h | h)
        · exact Or.inl h
        · exact Or.inr (Or.inr h)
      · rintro (h | h | h)
        · exact Or.inl h
        · exact Or.inl (h ▸ hp)
        · exact Or.inr h
    · rw [markParents, if_neg hp]
      dsimp only
      rw [ih]
      simp only [List.mem_cons]
      constructor
      · rintro ((h | h) | h)
        · exact Or.inr (Or.inl h)
        · exact Or.inl h
        · exact Or.inr (Or.inr h)
      · rintro (h | h | h)
        · exact Or.inl (Or.inr h)
        · exact Or.inl (Or.inl h)
        · exact Or.inr h

theorem markParents_snd_mem (ps : List Nat) (v : List Nat) (x : Nat) :
    x ∈ (markParents v ps).2 ↔ x ∈ ps ∧ x ∉ v := by
  induction ps generalizing v with
  | nil => simp [markParents]
  | cons p ps ih =>
    by_cases hp : p ∈ v
    · rw [markParents, if_pos hp, ih]
      simp only [List.mem_cons]
      constructor
      · rintro ⟨h1, h2⟩
        exact ⟨Or.inr h1, h2⟩
      · rintro ⟨h1 | h1, h2⟩
        · exact absurd (h1 ▸ hp) h2
        · exact ⟨h1, h2⟩
    · rw [markParents, if_neg hp]
      dsimp only
      simp only [List.mem_cons, ih, List.mem_cons]
      constructor
      · rintro (h | ⟨h1, h2⟩)
        · exact ⟨Or.inl h, h ▸ hp⟩
        · exact ⟨Or.inr h1, fun hv => h2 (Or.inr hv)⟩
      · rintro ⟨h1 | h1, h2⟩
        · exact Or.inl h1
        · by_cases hxp : x = p
          · exact Or.inl hxp
          · exact Or.inr ⟨h1, fun hv => (hv.elim hxp h2)⟩

theorem markParents_snd_nodup (ps : List Nat) (v : List Nat) :
    (markParents v ps).2.Nodup := by
  induction ps generalizing v with
  | nil => simp [markParents]
  | cons p ps ih =>
    by_cases hp : p ∈ v
    · rw [markParents, if_pos hp]
      exact ih v
    · rw [markParents, if_neg hp]
      dsimp only
      refine List.nodup_cons.mpr ⟨?_, ih (p :: v)⟩
      intro hmem
      exact ((markParents_snd_mem ps (p :: v) p).mp hmem).2 (List.mem_cons_self p v)

theorem logLoopS_nil (store : List Commit) (fuel : Nat) (v : List Nat) :
    logLoopS store fuel v [] = .ok (fuel, v, []) := by
  cases fuel <;> rfl

theorem logLoopS_append (store : List Commit) (fuel : Nat) :
    ∀ (v s1 s2 : List Nat),
    logLoopS store fuel v (s1 ++ s2) =
      (logLoopS store fuel v s1).bind (fun a =>
        (logLoopS store a.1 a.2.1 s2).map (fun b => (b.1, b.2.1, a.2.2 ++ b.2.2))) := by
  induction fuel with
  | zero =>
    intro v s1 s2
    cases s1 with
    | nil =>
      rw [List.nil_append, logLoopS_nil]
      cases h2 : logLoopS store 0 v s2 with
      | ok b => simp [Except.bind, Except.map, h2]
      | error e => simp [Except.bind, Except.map, h2]
    | cons c s1' =>
      rw [List.cons_append]
      simp [logLoopS, Except.bind]
  | succ fuel ih =>
    intro v s1 s2
    cases s1 with
    | nil =>
      rw [List.nil_append, logLoopS_nil]
      cases h2 : logLoopS store (fuel + 1) v s2 with
      | ok b => simp [Except.bind, Except.map, h2]
      | error e => simp [Except.bind, Except.map, h2]
    | cons c s1' =>
      rw [List.cons_append]
      simp only [logLoopS]
      cases hf : fetchCommit store c with
      | none => simp [Except.bind]
      | some cm =>
        dsimp only
        rw [← List.append_assoc]
        rw [ih]
        cases h1 : logLoopS store fuel (markParents v cm.parents).1
            ((markParents v cm.parents).2.reverse ++ s1') with
        | error e => simp [Except.bind]
        | ok a =>
          cases h2 : logLoopS store a.1 a.2.1 s2 with
          | error e => simp [Except.bind, Except.map, h2]
          | ok b => simp [Except.bind, Except.map, h2]

theorem logLoopS_single (store : List Commit) (fuel : Nat) (v : List Nat)
    (q f' : Nat) (v' : List Nat) (ys : List (Nat × Commit))
    (h : logLoopS store fuel v [q] = .ok (f', v', ys)) :
    ∃ cm tail, fetchCommit store q = some cm ∧ ys = (q, cm) :: tail := by
  cases fuel with
  | zero => simp [logLoopS] at h
  | succ fuel =>
    simp only [logLoopS] at h
    cases hf : fetchCommit store q with
    | none => rw [hf] at h; simp at h
    | some cm =>
      rw [hf] at h
      dsimp only at h
      cases h1 : logLoopS store fuel (markParents v cm.parents).1
          ((markParents v cm.parents).2.reverse ++ []) with
      | error e => rw [h1] at h; simp at h
      | ok a =>
        rw [h1] at h
        simp only [Except.ok.injEq, Prod.mk.injEq] at h
        exact ⟨cm, a.2.2, rfl, h.2.2.symm⟩

/-- Chained complete single-commit runs of the traversal loop: each stack
entry is run to completion in turn, threading fuel and visited set. -/
inductive RunsSeq (store : List Commit) :
    Nat → List Nat → List Nat → List (List (Nat × Commit)) → Nat → List Nat → Prop
  | nil (f : Nat) (v : List Nat) : RunsSeq store f v [] [] f v
  | cons {f : Nat} {v : List Nat} {q : Nat} {qs : List Nat}
      {ys : List (Nat × Commit)} {segs : List (List (Nat × Commit))}
      {f1 : Nat} {v1 : List Nat} {f2 : Nat} {v2 : List Nat} :
      logLoopS store f v [q] = .ok (f1, v1, ys) →
      RunsSeq store f1 v1 qs segs f2 v2 →
      RunsSeq store f v (q :: qs) (ys :: segs) f2 v2

theorem logLoopS_decompose (store : List Commit) (qs : List Nat) :
    ∀ (fuel : Nat) (v rest : List Nat) (f' : Nat) (v' : List Nat)
      (ys : List (Nat × Commit)),
    logLoopS store fuel v (qs ++ rest) = .ok (f', v', ys) →
    ∃ segs f2 v2 yrest,
      RunsSeq store fuel v qs segs f2 v2 ∧
      logLoopS store f2 v2 rest = .ok (f', v', yrest) ∧
      ys = segs.flatten ++ yrest := by
  induction qs with
  | nil =>
    intro fuel v rest f' v' ys h
    exact ⟨[], fuel, v, ys, RunsSeq.nil fuel v, by simpa using h, by simp⟩
  | cons q qs ih =>
    intro fuel v rest f' v' ys h
    rw [show (q :: qs) ++ rest = [q] ++ (qs ++ rest) by simp] at h
    rw [logLoopS_append] at h
    cases h1 : logLoopS store fuel v [q] with
    | error e => rw [h1] at h; simp [Except.bind] at h
    | ok a =>
      rw [h1] at h
      simp only [Except.bind] at h
      cases h2 : logLoopS store a.1 a.2.1 (qs ++ rest) with
      | error e => rw [h2] at h; simp [Except.map] at h
      | ok b =>
        rw [h2] at h
        simp only [Except.map, Except.ok.injEq, Prod.mk.injEq] at h
        obtain ⟨hf, hv, hys⟩ := h
        obtain ⟨segs, f2, v2, yrest, hruns, hrest, hflat⟩ :=
          ih a.1 a.2.1 rest b.1 b.2.1 b.2.2 (by rw [h2])
        refine ⟨a.2.2 :: segs, f2, v2, yrest, ?_, ?_, ?_⟩
        · exact RunsSeq.cons (by rw [h1]) hruns
        · rw [hrest, hf, hv]
        · rw [← hys, hflat]
          simp

theorem runsSeq_heads (store : List Commit) :
    ∀ {f : Nat} {v qs : List Nat} {segs : List (List (Nat × Commit))}
      {f2 : Nat} {v2 : List Nat},
    RunsSeq store f v qs segs f2 v2 →
    List.Forall₂ (fun q seg => ∃ cm tail,
      fetchCommit store q = some cm ∧ seg = (q, cm) :: tail) qs segs := by
  intro f v qs segs f2 v2 h
  induction h with
  | nil => exact List.Forall₂.nil
  | cons h1 _ ih =>
    exact List.Forall₂.cons (logLoopS_single store _ _ _ _ _ _ h1) ih

/-- C5 (amended): the traversal is depth-first and deterministic (the
embedded log is a function of store and head), but ties are broken by
REVERSE parent list order: after yielding a popped commit, the output
continues with one complete contiguous depth-first segment per freshly
discovered parent, in reverse parent-list order — the last fresh parent and
its ancestry are yielded before the next-to-last, and so on — followed by
the traversal of the rest of the stack; each nonempty segment starts with
its own parent. -/
theorem log_tie_break_reverse_parent_order (store : List Commit) (fuel : Nat)
    (v : List Nat) (c : Nat) (rest : List Nat) (cm : Commit) (f' : Nat)
    (v' : List Nat) (ys : List (Nat × Commit))
    (hf : fetchCommit store c = some cm)
    (h : logLoopS store (fuel + 1) v (c :: rest) = .ok (f', v', ys)) :
    ∃ segs f2 v2 yrest,
      RunsSeq store fuel (markParents v cm.parents).1
        (markParents v cm.parents).2.reverse segs f2 v2 ∧
      List.Forall₂ (fun q seg => ∃ cm2 tail,
        fetchCommit store q = some cm2 ∧ seg = (q, cm2) :: tail)
        (markParents v cm.parents).2.reverse segs ∧
      logLoopS store f2 v2 rest = .ok (f', v', yrest) ∧
      ys = (c, cm) :: (segs.flatten ++ yrest) := by
  simp only [logLoopS] at h
  rw [hf] at h
  dsimp only at h
  cases h1 : logLoopS store fuel (markParents v cm.parents).1
      ((markParents v cm.parents).2.reverse ++ rest) with
  | error e => rw [h1] at h; simp at h
  | ok a =>
    rw [h1] at h
    simp only [Except.ok.injEq, Prod.mk.injEq] at h
    obtain ⟨hfe, hve, hye⟩ := h
    obtain ⟨segs, f2, v2, yrest, hruns, hrest, hflat⟩ :=
      logLoopS_decompose store (markParents v cm.parents).2.reverse fuel
        (markParents v cm.parents).1 rest a.1 a.2.1 a.2.2 (by rw [h1])
    refine ⟨segs, f2, v2, yrest, hruns, runsSeq_heads store hruns, ?_, ?_⟩
    · rw [hrest, hfe, hve]
    · rw [← hye, hflat]

theorem log_tie_break_reverse_parent_order_witness :
    ∃ segs f2 v2 yrest,
      RunsSeq [⟨10, [], ⟨none, none⟩, 0, none⟩, ⟨11, [], ⟨none, none⟩, 1, none⟩,
          ⟨12, [0, 1], ⟨none, none⟩, 2, none⟩] 3 [1, 0] [1, 0] segs f2 v2 ∧
      List.Forall₂ (fun q seg => ∃ cm2 tail,
        fetchCommit [⟨10, [], ⟨none, none⟩, 0, none⟩, ⟨11, [], ⟨none, none⟩, 1, none⟩,
          ⟨12, [0, 1], ⟨none, none⟩, 2, none⟩] q = some cm2 ∧ seg = (q, cm2) :: tail)
        [1, 0] segs ∧
      logLoopS [⟨10, [], ⟨none, none⟩, 0, none⟩, ⟨11, [], ⟨none, none⟩, 1, none⟩,
          ⟨12, [0, 1], ⟨none, none⟩, 2, none⟩] f2 v2 [] = .ok (1, [1, 0], yrest) ∧
      [(2, (⟨12, [0, 1], ⟨none, none⟩, 2, none⟩ : Commit)),
        (1, (⟨11, [], ⟨none, none⟩, 1, none⟩ : Commit)),
        (0, (⟨10, [], ⟨none, none⟩, 0, none⟩ : Commit))] =
        (2, (⟨12, [0, 1], ⟨none, none⟩, 2, none⟩ : Commit)) ::
          (segs.flatten ++ yrest) :=
  log_tie_break_reverse_parent_order
    [⟨10, [], ⟨none, none⟩, 0, none⟩, ⟨11, [], ⟨none, none⟩, 1, none⟩,
      ⟨12, [0, 1], ⟨none, none⟩, 2, none⟩] 3 [] 2 []
    ⟨12, [0, 1], ⟨none, none⟩, 2, none⟩ 1 [1, 0]
    [(2, ⟨12, [0, 1], ⟨none, none⟩, 2, none⟩),
      (1, ⟨11, [], ⟨none, none⟩, 1, none⟩),
      (0, ⟨10, [], ⟨none, none⟩, 0, none⟩)] rfl rfl

/-- `p` is a parent of commit `c` in the store (one edge of the commit
graph followed by the log traversal). -/
def IsParent (store : List Commit) (c p : Nat) : Prop :=
  ∃ cm, fetchCommit store c = some cm ∧ p ∈ cm.parents

/-- Reachability from `a` by following parent references. -/
def Reaches (store : List Commit) (a b : Nat) : Prop :=
  Relation.ReflTransGen (IsParent store) a b

/-- The commit graph is a DAG: no nonempty parent cycle. -/
def Acyclic (store : List Commit) : Prop :=
  ∀ c, ¬ Relation.TransGen (IsParent store) c c

theorem acyclic_of_rank (store : List Commit) (rank : Nat → Nat)
    (h : ∀ c p, IsParent store c p → rank p < rank c) : Acyclic store := by
  intro c hc
  have hlt : ∀ a b, Relation.TransGen (IsParent store) a b → rank b < rank a := by
    intro a b h'
    induction h' with
    | single hs => exact h _ _ hs
    | tail _ hs ih => exact lt_trans (h _ _ hs) ih
  exact absurd (hlt c c hc) (lt_irrefl _)

theorem reaches_lt (store : List Commit) (h0 n : Nat) (hh : h0 < n)
    (hcl : ∀ c cm p, fetchCommit store c = some cm → p ∈ cm.parents → p < n) :
    ∀ c, Reaches store h0 c → c < n := by
  intro c hr
  induction hr with
  | refl => exact hh
  | tail _ hs ih =>
    obtain ⟨cm, hcm, hp⟩ := hs
    exact hcl _ cm _ hcm hp

theorem nodup_lt_length_le (l : List Nat) (n : Nat) (hnd : l.Nodup)
    (hlt : ∀ x ∈ l, x < n) : l.length ≤ n := by
  have hsub : l.toFinset ⊆ Finset.range n := by
    intro x hx
    rw [Finset.mem_range]
    exact hlt x (List.mem_toFinset.mp hx)
  have hcard := Finset.card_le_card hsub
  rw [List.toFinset_card_of_nodup hnd, Finset.card_range] at hcard
  exact hcard

/-- The invariant of the log traversal loop: every recorded commit is
reachable from the head, nothing is recorded twice, the visited set is
exactly the pushed commits other than the head, the parents of every yielded
commit are visited, and the head itself was pushed. -/
structure LogInv (store : List Commit) (h0 : Nat)
    (visited queue yielded : List Nat) : Prop where
  reach : ∀ c, c ∈ yielded ++ queue → Reaches store h0 c
  nodup : (yielded ++ queue).Nodup
  vis : ∀ x, x ∈ visited ↔ (x ∈ yielded ++ queue ∧ x ≠ h0)
  closed : ∀ c, c ∈ yielded → ∀ p, IsParent store c p → p ∈ visited
  head_mem : h0 ∈ yielded ++ queue

theorem logInv_step (store : List Commit) (h0 : Nat) (hacyc : Acyclic store)
    (visited rest yielded : List Nat) (c : Nat) (cm : Commit)
    (hcm : fetchCommit store c = some cm)
    (hinv : LogInv store h0 visited (c :: rest) yielded) :
    LogInv store h0 (markParents visited cm.parents).1
      ((markParents visited cm.parents).2.reverse ++ rest) (yielded ++ [c]) := by
  have hcr : Reaches store h0 c := hinv.reach c (by simp)
  have hph : ∀ p ∈ cm.parents, p ≠ h0 := by
    intro p hp hpe
    exact hacyc h0 (Relation.TransGen.tail' hcr
      (⟨cm, hcm, hpe ▸ hp⟩ : IsParent store c h0))
  have hold : ((yielded ++ [c]) ++ rest).Nodup := by
    have h2 := hinv.nodup
    rw [List.append_cons] at h2
    exact h2
  obtain ⟨hnYc, hnRest, hdYcR⟩ := List.nodup_append.mp hold
  have memOld : ∀ x : Nat, x ∈ yielded ++ c :: rest ↔
      (x ∈ yielded ∨ x = c ∨ x ∈ rest) := by
    intro x
    simp [List.mem_append, List.mem_cons]
  have memNew : ∀ x : Nat,
      x ∈ (yielded ++ [c]) ++ ((markParents visited cm.parents).2.reverse ++ rest) ↔
      (x ∈ yielded ∨ x = c ∨ x ∈ (markParents visited cm.parents).2 ∨ x ∈ rest) := by
    intro x
    simp [List.mem_append, List.mem_cons, List.mem_reverse]
  have hsnd : ∀ x : Nat, x ∈ (markParents visited cm.parents).2 ↔
      (x ∈ cm.parents ∧ x ∉ visited) := fun x =>
    markParents_snd_mem cm.parents visited x
  have hfst : ∀ x : Nat, x ∈ (markParents visited cm.parents).1 ↔
      (x ∈ visited ∨ x ∈ cm.parents) := fun x =>
    markParents_fst_mem cm.parents visited x
  refine ⟨?_, ?_, ?_, ?_, ?_⟩
  · -- reach
    intro x hx
    rcases (memNew x).mp hx with h | h | h | h
    · exact hinv.reach x ((memOld x).mpr (Or.inl h))
    · exact h ▸ hcr
    · obtain ⟨hp, -⟩ := (hsnd x).mp h
      exact Relation.ReflTransGen.tail hcr ⟨cm, hcm, hp⟩
    · exact hinv.reach x ((memOld x).mpr (Or.inr (Or.inr h)))
  · -- nodup
    refine List.nodup_append.mpr ⟨hnYc, ?_, ?_⟩
    · refine List.nodup_append.mpr
        ⟨List.nodup_reverse.mpr (markParents_snd_nodup cm.parents visited), hnRest, ?_⟩
      intro a ha har
      obtain ⟨hp, hnv⟩ := (hsnd a).mp (List.mem_reverse.mp ha)
      exact hnv ((hinv.vis a).mpr
        ⟨(memOld a).mpr (Or.inr (Or.inr har)), hph a hp⟩)
    · intro a ha hb
      rcases List.mem_append.mp hb with hb | hb
      · obtain ⟨hp, hnv⟩ := (hsnd a).mp (List.mem_reverse.mp hb)
        have haold : a ∈ yielded ++ c :: rest := by
          rcases List.mem_append.mp ha with h | h
          · exact (memOld a).mpr (Or.inl h)
          · exact (memOld a).mpr (Or.inr (Or.inl (List.mem_singleton.mp h)))
        exact hnv ((hinv.vis a).mpr ⟨haold, hph a hp⟩)
      · exact hdYcR ha hb
  · -- vis
    intro x
    rw [hfst x]
    constructor
    · rintro (hv | hp)
      · obtain ⟨hm, hne⟩ := (hinv.vis x).mp hv
        rcases (memOld x).mp hm with h | h | h
        · exact ⟨(memNew x).mpr (Or.inl h), hne⟩
        · exact ⟨(memNew x).mpr (Or.inr (Or.inl h)), hne⟩
        · exact ⟨(memNew x).mpr (Or.inr (Or.inr (Or.inr h))), hne⟩
      · have hne := hph x hp
        by_cases hv : x ∈ visited
        · obtain ⟨hm, -⟩ := (hinv.vis x).mp hv
          rcases (memOld x).mp hm with h | h | h
          · exact ⟨(memNew x).mpr (Or.inl h), hne⟩
          · exact ⟨(memNew x).mpr (Or.inr (Or.inl h)), hne⟩
          · exact ⟨(memNew x).mpr (Or.inr (Or.inr (Or.inr h))), hne⟩
        · exact ⟨(memNew x).mpr (Or.inr (Or.inr (Or.inl ((hsnd x).mpr ⟨hp, hv⟩)))), hne⟩
    · rintro ⟨hm, hne⟩
      rcases (memNew x).mp hm with h | h | h | h
      · exact Or.inl ((hinv.vis x).mpr ⟨(memOld x).mpr (Or.inl h), hne⟩)
      · exact Or.inl ((hinv.vis x).mpr ⟨(memOld x).mpr (Or.inr (Or.inl h)), hne⟩)
      · exact Or.inr ((hsnd x).mp h).1
      · exact Or.inl ((hinv.vis x).mpr ⟨(memOld x).mpr (Or.inr (Or.inr h)), hne⟩)
  · -- closed
    intro c' hc' p hpar
    rcases List.mem_append.mp hc' with h | h
    · exact (hfst p).mpr (Or.inl (hinv.closed c' h p hpar))
    · have hcc : c' = c := List.mem_singleton.mp h
      obtain ⟨cm', hcm', hp⟩ := hpar
      rw [hcc, hcm] at hcm'
      have : cm' = cm := (Option.some.injEq _ _).mp hcm'.symm
      exact (hfst p).mpr (Or.inr (this ▸ hp))
  · -- head_mem
    rcases (memOld h0).mp hinv.head_mem with h | h | h
    · exact (memNew h0).mpr (Or.inl h)
    · exact (memNew h0).mpr (Or.inr (Or.inl h))
    · exact (memNew h0).mpr (Or.inr (Or.inr (Or.inr h)))

theorem logLoop_inv (store : List Commit) (h0 : Nat) (hacyc : Acyclic store)
    (hfetch : ∀ c, Reaches store h0 c → c < store.length) :
    ∀ (fuel : Nat) (visited queue yielded : List Nat),
    LogInv store h0 visited queue yielded →
    store.length + 1 ≤ fuel + yielded.length →
    ∃ f' v' ys, logLoopS store fuel visited queue = .ok (f', v', ys) ∧
      LogInv store h0 v' [] (yielded ++ ys.map Prod.fst) := by
  intro fuel
  induction fuel with
  | zero =>
    intro visited queue yielded hinv hfuel
    cases queue with
    | nil =>
      refine ⟨0, visited, [], logLoopS_nil store 0 visited, ?_⟩
      simpa using hinv
    | cons c rest =>
      exfalso
      have hall : ∀ x ∈ yielded ++ c :: rest, x < store.length :=
        fun x hx => hfetch x (hinv.reach x hx)
      have hlen := nodup_lt_length_le (yielded ++ c :: rest) store.length
        hinv.nodup hall
      rw [List.length_append, List.length_cons] at hlen
      omega
  | succ fuel ih =>
    intro visited queue yielded hinv hfuel
    cases queue with
    | nil =>
      refine ⟨fuel + 1, visited, [], logLoopS_nil store (fuel + 1) visited, ?_⟩
      simpa using hinv
    | cons c rest =>
      have hcr : Reaches store h0 c := hinv.reach c (by simp)
      have hclt : c < store.length := hfetch c hcr
      have hcm : fetchCommit store c = some store[c] := by
        unfold fetchCommit
        exact List.getElem?_eq_getElem hclt
      have hinv' := logInv_step store h0 hacyc visited rest yielded c store[c]
        hcm hinv
      have hfuel' : store.length + 1 ≤ fuel + (yielded ++ [c]).length := by
        rw [List.length_append]
        simp only [List.length_singleton]
        omega
      obtain ⟨f', vfin, ys, hrun, hfin⟩ := ih
        (markParents visited store[c].parents).1
        ((markParents visited store[c].parents).2.reverse ++ rest)
        (yielded ++ [c]) hinv' hfuel'
      refine ⟨f', vfin, (c, store[c]) :: ys, ?_, ?_⟩
      · simp only [logLoopS]
        rw [hcm]
        dsimp only
        rw [hrun]
      · simpa [List.append_assoc] using hfin

theorem logInv_complete (store : List Commit) (h0 : Nat) (v Y : List Nat)
    (hinv : LogInv store h0 v [] Y) :
    ∀ c, Reaches store h0 c → c ∈ Y := by
  intro c hr
  induction hr with
  | refl => simpa using hinv.head_mem
  | tail hab hbc ih =>
    have hv := hinv.closed _ ih _ hbc
    have hm := (hinv.vis _).mp hv
    simpa using hm.1

/-- C4: for a repository whose commit graph is a finite DAG (acyclic parent
relation, every commit reachable from the head present in the store), the
sequence produced by `log` contains every commit reachable from the head
exactly once: the yielded references are without duplicates and a reference
is yielded iff it is reachable. -/
theorem log_each_reachable_once (store : List Commit) (h0 : Nat)
    (hacyc : Acyclic store)
    (hfetch : ∀ c, Reaches store h0 c → c < store.length) :
    ∃ ys, logRun store (some h0) = .ok ys ∧
      (ys.map Prod.fst).Nodup ∧
      (∀ c, c ∈ ys.map Prod.fst ↔ Reaches store h0 c) := by
  have hinv0 : LogInv store h0 [] [h0] [] := by
    refine ⟨?_, ?_, ?_, ?_, ?_⟩
    · intro c hcmem
      have hc : c = h0 := by simpa using hcmem
      exact hc ▸ Relation.ReflTransGen.refl
    · simp
    · intro x
      constructor
      · intro hx
        simp at hx
      · rintro ⟨h1, h2⟩
        simp at h1
        exact absurd h1 h2
    · intro c hc
      simp at hc
    · simp
  obtain ⟨f', v', ys, hrun, hfin⟩ := logLoop_inv store h0 hacyc hfetch
    (store.length + 1) [] [h0] [] hinv0 (by simp)
  refine ⟨ys, ?_, ?_, ?_⟩
  · unfold logRun
    dsimp only
    rw [hrun]
  · have hn := hfin.nodup
    simpa using hn
  · intro c
    constructor
    · intro hc
      exact hfin.reach c (by simpa using hc)
    · intro hr
      have hm := logInv_complete store h0 v' ([] ++ ys.map Prod.fst) hfin c hr
      simpa using hm

theorem log_each_reachable_once_witness :
    ∃ ys, logRun [⟨20, [], ⟨none, none⟩, 0, none⟩,
        ⟨21, [0], ⟨none, none⟩, 1, none⟩] (some 1) = .ok ys ∧
      (ys.map Prod.fst).Nodup ∧
      (∀ c, c ∈ ys.map Prod.fst ↔
        Reaches [⟨20, [], ⟨none, none⟩, 0, none⟩,
          ⟨21, [0], ⟨none, none⟩, 1, none⟩] 1 c) :=
  log_each_reachable_once
    [⟨20, [], ⟨none, none⟩, 0, none⟩, ⟨21, [0], ⟨none, none⟩, 1, none⟩] 1
    (acyclic_of_rank _ id (by
      intro c p hpar
      obtain ⟨cm, hcm, hp⟩ := hpar
      unfold fetchCommit at hcm
      have hc2 : c < 2 := by
        by_contra hge
        rw [List.getElem?_eq_none (by simpa using Nat.le_of_not_lt hge)] at hcm
        exact absurd hcm (by simp)
      interval_cases c <;> simp at hcm <;> subst hcm <;> simp_all))
    (reaches_lt _ 1 2 (by omega) (by
      intro c cm p hcm hp
      unfold fetchCommit at hcm
      have hc2 : c < 2 := by
        by_contra hge
        rw [List.getElem?_eq_none (by simpa using Nat.le_of_not_lt hge)] at hcm
        exact absurd hcm (by simp)
      interval_cases c <;> simp at hcm <;> subst hcm <;> simp_all))
